import Mathlib

/-!
A shallow embedding of the `mount` middleware (src/src/mount.rs): the data
model, route registration (`Mount::on`) and dispatch (`Mount::handle`),
together with theorems checking the specification's claims about them.
-/

set_option autoImplicit false

/-- Modelled from the spec: the absolute URL type of the external `iron`
crate (not under src/).  Only the `path` field is ever manipulated by the
code under verification; every other component (scheme, host, port, query,
fragment, ...) is collapsed into the opaque `rest` field. -/
structure Url where
  path : List String
  rest : String
deriving DecidableEq

/-- Modelled from the spec: the extensions typemap of an iron `Request`
(external).  The two keys the program manages (`OriginalUrl`,
`VirtualRoot`, src/mount.rs lines 7-15) are explicit optional fields; all
other entries of the typemap are collapsed into the opaque `other` field. -/
structure Extensions where
  originalUrl : Option Url
  virtualRoot : Option Url
  other : String
deriving DecidableEq

/-- Modelled from the spec: an iron `Request` (external): a mutable URL, the
extensions typemap, and all remaining request fields (method, headers,
body, ...) collapsed into the opaque `rest` field. -/
structure Request where
  url : Url
  extensions : Extensions
  rest : String
deriving DecidableEq

/-- Modelled from the spec: an iron `Response` (external, opaque to the
core).  The `seen` constructor lets a test handler report the exact request
state it was invoked with, which is how "the handler observes ..." claims
are stated. -/
inductive Response where
  | text (s : String)
  | seen (r : Request)
deriving DecidableEq

/-- The errors a handler call can produce: the `NoMatch` error raised by
`Mount::handle` (src/mount.rs lines 37-49 and 101), an arbitrary
handler-originated error, or exhaustion of the recursion fuel of the
embedding (nested mounts are run with explicit fuel). -/
inductive HandlerError where
  | noMatch
  | other (code : Nat)
  | outOfFuel
deriving DecidableEq

mutual
/-- A handler as storable in the trie: either an opaque external
`iron::Handler`, modelled as a state-transforming function on requests, or
a nested `Mount` (which itself implements `Handler`, src/mount.rs lines
85-147), represented by its inner trie. -/
inductive Handler : Type where
  | base : (Request → Request × Except HandlerError Response) → Handler
  | mount : Trie → Handler

/-- Modelled from the spec: a node of `SequenceTrie<String, Match>` from the
external `sequence_trie` crate (not under src/): an optional value at this
node plus children keyed by path segment. -/
inductive Trie : Type where
  | mk : Option Match → List (String × Trie) → Trie

/-- The `Match` struct of src/mount.rs lines 32-35: a boxed handler and the
number of path segments of the route it was registered at. -/
inductive Match : Type where
  | mk : Handler → Nat → Match
end

/-- The handler stored in a `Match` (field `handler` of src/mount.rs line 33). -/
def Match.handler : Match → Handler
  | .mk h _ => h

/-- The route segment count stored in a `Match` (field `length` of
src/mount.rs line 34). -/
def Match.length : Match → Nat
  | .mk _ n => n

/-- Modelled from the spec: lookup of the child of a trie node for a given
segment (the children map access of `SequenceTrie`). -/
def Trie.find? : List (String × Trie) → String → Option Trie
  | [], _ => none
  | (k, t) :: cs, s => if k = s then some t else Trie.find? cs s

/-- Modelled from the spec: replace the child stored for segment `s` (first
occurrence), or add it if absent, as `SequenceTrie::insert` does through
the children map. -/
def Trie.replaceChild : List (String × Trie) → String → Trie → List (String × Trie)
  | [], s, c => [(s, c)]
  | (k, t) :: cs, s, c =>
    if k = s then (s, c) :: cs else (k, t) :: Trie.replaceChild cs s c

/-- Modelled from the spec: `SequenceTrie::insert` — walk (creating nodes as
needed) the chain of nodes addressed by `key` and set the final node's
value, replacing any previous one (src/mount.rs line 71 relies on this). -/
def Trie.insert : Trie → List String → Match → Trie
  | .mk _ cs, [], v => .mk (some v) cs
  | .mk tv cs, s :: rest, v =>
    let child := (Trie.find? cs s).getD (Trie.mk none [])
    .mk tv (Trie.replaceChild cs s (child.insert rest v))

/-- Modelled from the spec: exact lookup of the value stored at the node
addressed by `key` (identifies which node a binding lives at). -/
def Trie.get? : Trie → List String → Option Match
  | .mk v _, [] => v
  | .mk _ cs, s :: rest =>
    match Trie.find? cs s with
    | none => none
    | some c => c.get? rest

/-- Modelled from the spec: `SequenceTrie::get_ancestor` (src/mount.rs line
99) — walk the trie along `key` while a matching child exists and return
the value of the deepest visited node that has one. -/
def Trie.getAncestor : Trie → List String → Option Match
  | .mk v _, [] => v
  | .mk v cs, s :: rest =>
    match Trie.find? cs s with
    | none => v
    | some c => (c.getAncestor rest).orElse (fun _ => v)

/-- The `Mount` middleware of src/mount.rs lines 28-30: a trie of matches. -/
structure Mount where
  inner : Trie

/-- `Mount::new` (src/mount.rs lines 53-57). -/
def Mount.new : Mount := ⟨Trie.mk none []⟩

/-- Modelled from the spec: splitting a list of characters on `/`
(character-level model of the splitting performed by
`Path::str_components`).  Splitting an empty input yields one empty
segment, and each `/` starts a new segment. -/
def splitSlash : List Char → List String
  | [] => [""]
  | c :: cs =>
    if c = '/' then "" :: splitSlash cs
    else
      match splitSlash cs with
      | [] => [String.mk [c]]
      | s :: ss => String.mk (c :: s.data) :: ss

/-- Modelled from the spec: `Path::new(route).str_components()` from the old
Rust standard library (not under src/, used in src/mount.rs lines 67-68):
split the route on `/` and drop empty components, so leading, trailing and
duplicate slashes are ignored (the comment at src/mount.rs lines 90-92
relies on routes never containing an empty segment). -/
def parseRoute (route : String) : List String :=
  (splitSlash route.data).filter (fun s => s ≠ "")

/-- `Mount::on` (src/mount.rs lines 65-76): parse the route and insert a
`Match` recording the handler and the number of route segments. -/
def Mount.on (m : Mount) (route : String) (h : Handler) : Mount :=
  let key := parseRoute route
  ⟨m.inner.insert key (Match.mk h key.length)⟩

/-- The normalization loop of src/mount.rs lines 89-96: repeatedly drop a
trailing empty segment (which represents a trailing slash) from the path. -/
def stripTrailingEmpty : List String → List String
  | [] => []
  | s :: rest =>
    match stripTrailingEmpty rest with
    | [] => if s = "" then [] else [s]
    | r :: rs => s :: r :: rs

/-- The steps of `Mount::handle` before the handler call (src/mount.rs lines
104-126): on the outermost mount insert `OriginalUrl` (the unmodified URL)
and `VirtualRoot` (the URL with path `root`); on an inner mount append
`root` to the existing `VirtualRoot` path.  Then strip the first
`matched.length` segments from the request's (un-normalized) path. -/
def Mount.dispatchEnter (req : Request) (root : List String) (matched : Match)
    (isOuterMount : Bool) : Request :=
  let req1 :=
    if isOuterMount then
      { req with extensions :=
        { req.extensions with
          originalUrl := some req.url,
          virtualRoot := some { req.url with path := root } } }
    else
      { req with extensions :=
        { req.extensions with
          virtualRoot := req.extensions.virtualRoot.map
            (fun old => { old with path := old.path ++ root }) } }
  { req1 with url := { req1.url with path := req1.url.path.drop matched.length } }

/-- The steps of `Mount::handle` after the handler call (src/mount.rs lines
130-143): restore the original path unconditionally, then on the outermost
mount remove both context keys, and on an inner mount truncate the
`VirtualRoot` path by the length of `root`. -/
def Mount.dispatchExit (req3 : Request) (original root : List String)
    (isOuterMount : Bool) : Request :=
  let req4 := { req3 with url := { req3.url with path := original } }
  if isOuterMount then
    { req4 with extensions :=
      { req4.extensions with originalUrl := none, virtualRoot := none } }
  else
    { req4 with extensions :=
      { req4.extensions with
        virtualRoot := req4.extensions.virtualRoot.map
          (fun old =>
            { old with path := old.path.take (old.path.length - root.length) }) } }

/-- The body of `Mount::handle` (src/mount.rs lines 86-146), parameterized
by the function used to invoke the matched handler: capture the original
path, normalize away trailing empty segments, look up the deepest ancestor
binding (failing with `NoMatch` if there is none), push the context and
strip the prefix, run the handler, then restore the path and pop the
context, returning the handler's result unchanged. -/
def Mount.handleCore
    (recur : Handler → Request → Request × Except HandlerError Response)
    (m : Mount) (req : Request) : Request × Except HandlerError Response :=
  let original := req.url.path
  let root := stripTrailingEmpty original
  match m.inner.getAncestor root with
  | none => (req, Except.error HandlerError.noMatch)
  | some matched =>
    let isOuterMount := !req.extensions.originalUrl.isSome
    let out := recur matched.handler (Mount.dispatchEnter req root matched isOuterMount)
    (Mount.dispatchExit out.fst original root isOuterMount, out.snd)

/-- Run a handler: an opaque base handler is its own function; a nested
`Mount` runs `Mount::handle`, consuming one unit of recursion fuel. -/
def Handler.run : Nat → Handler → Request → Request × Except HandlerError Response
  | _, .base f, req => f req
  | 0, .mount _, req => (req, Except.error HandlerError.outOfFuel)
  | fuel + 1, .mount t, req => Mount.handleCore (Handler.run fuel) ⟨t⟩ req

/-- `Mount::handle` (src/mount.rs lines 85-147) at a given recursion fuel
for nested mounts. -/
def Mount.handle (fuel : Nat) (m : Mount) (req : Request) :
    Request × Except HandlerError Response :=
  Mount.handleCore (Handler.run fuel) m req

/-- The binding `Mount::handle` selects for a request path: the deepest
registered ancestor of the path after trailing-empty-segment removal
(src/mount.rs lines 93-102). -/
def Mount.matchFor (m : Mount) (path : List String) : Option Match :=
  m.inner.getAncestor (stripTrailingEmpty path)

deriving instance DecidableEq for Except

/-- A test handler that succeeds, leaves the request untouched, and reports
the exact request state it was invoked with. -/
def probe : Handler :=
  Handler.base (fun r => (r, Except.ok (Response.seen r)))

/-- The `VirtualRoot` path observed by a `probe` handler during a dispatch,
extracted from the dispatch result (`none` if the probe did not run). -/
def seenVirtualRootPath (out : Request × Except HandlerError Response) :
    Option (List String) :=
  match out.snd with
  | Except.ok (Response.seen r) => r.extensions.virtualRoot.map (fun u => u.path)
  | _ => none

/-- The length of the `VirtualRoot` path of a request (`none` when the
entry is absent). -/
def virtualRootLen (r : Request) : Option Nat :=
  r.extensions.virtualRoot.map (fun u => u.path.length)

/-- Everything in a request other than `url.path` and the two context
entries `OriginalUrl` and `VirtualRoot`: the non-path URL components, the
other typemap entries, and the non-URL request fields. -/
def otherState (r : Request) : String × String × String :=
  (r.url.rest, r.extensions.other, r.rest)

/-- A handler (and, recursively, every handler reachable inside a nested
mount) whose invocation preserves the observation `obs` of the request
state, on any request carrying `OriginalUrl` (every handler invoked by a
mount runs in such a state). -/
inductive HandlerPreserves {α : Type} (obs : Request → α) : Handler → Prop where
  | base (f : Request → Request × Except HandlerError Response) :
      (∀ r, r.extensions.originalUrl.isSome = true → obs (f r).fst = obs r) →
      HandlerPreserves obs (Handler.base f)
  | mount (t : Trie) :
      (∀ q mt, t.get? q = some mt → HandlerPreserves obs mt.handler) →
      HandlerPreserves obs (Handler.mount t)

/-- A mount built by `Mount::new` followed by any sequence of `Mount::on`
registrations (the only way the public API builds one). -/
inductive Built : Mount → Prop where
  | new : Built Mount.new
  | register (m : Mount) (route : String) (h : Handler) : Built m → Built (m.on route h)

/-- Nested-mounts configuration: an outer mount registering the segment
sequence `a` to an inner mount that registers `b` to the probe handler. -/
def c1Outer (a b : List String) : Mount :=
  ⟨Mount.new.inner.insert a
    (Match.mk (Handler.mount (Mount.new.inner.insert b (Match.mk probe b.length)))
      a.length)⟩

/-- A request addressed to `a ++ b ++ extra`, entering outermost (no
`OriginalUrl`), with arbitrary initial `VirtualRoot` and opaque fields. -/
def c1Req (a b extra : List String) (urest : String) (vr0 : Option Url)
    (eo rrest : String) : Request :=
  ⟨⟨a ++ (b ++ extra), urest⟩, ⟨none, vr0, eo⟩, rrest⟩

/-- Concrete nested mounts built through `Mount::on`: `/a` maps to an inner
mount in which `/b` maps to the probe handler. -/
def c1CexOuter : Mount := Mount.new.on "/a" (Handler.mount (Mount.new.on "/b" probe).inner)

/-- Concrete request for path `/a/b/x`, entering outermost. -/
def c1CexReq : Request := ⟨⟨["a", "b", "x"], "u"⟩, ⟨none, none, "e"⟩, "r"⟩

/-- A mount serving `/hello` with the probe handler. -/
def w2Mount : Mount := Mount.new.on "/hello" probe

/-- A request for `/hello/world/` (note the un-normalized trailing empty
segment), entering outermost. -/
def w2Req : Request := ⟨⟨["hello", "world", ""], "u"⟩, ⟨none, none, "e"⟩, "r"⟩

/-- A handler registered at `/foo` (the shallower route of the C3 witness). -/
def w3HandlerA : Handler := Handler.base (fun r => (r, Except.ok (Response.text "R1")))

/-- A handler registered at `/foo/bar` (the deeper route of the C3 witness). -/
def w3HandlerB : Handler := Handler.base (fun r => (r, Except.ok (Response.text "R2")))

/-- A mount with `/foo` bound to `w3HandlerA` and `/foo/bar` to `w3HandlerB`. -/
def w3Mount : Mount := (Mount.new.on "/foo" w3HandlerA).on "/foo/bar" w3HandlerB

/-- An outer mount whose `/a` route delegates to an inner mount with no
registrations at all; any request under `/a` therefore produces a
propagated `NoMatch` even though `/a` itself matched. -/
def c5Mount : Mount := Mount.new.on "/a" (Handler.mount Mount.new.inner)

/-- A request for `/a/x`, entering outermost. -/
def c5Req : Request := ⟨⟨["a", "x"], "u"⟩, ⟨none, none, "e"⟩, "r"⟩

/-- A mount serving only `/hello`. -/
def w5Mount : Mount := Mount.new.on "/hello" probe

/-- A request for `/notfound` with both context keys already present; a
failed lookup must leave all of it untouched. -/
def w5Req : Request :=
  ⟨⟨["notfound"], "u"⟩, ⟨some ⟨["z"], "q"⟩, some ⟨["w"], "q"⟩, "e"⟩, "r"⟩

/-- A handler that always fails with a handler-originated error. -/
def w6Handler : Handler :=
  Handler.base (fun r => (r, Except.error (HandlerError.other 7)))

/-- A mount whose `/hello` handler always fails with a handler error. -/
def w6Mount : Mount := Mount.new.on "/hello" w6Handler

/-- A request for `/hello/x` entering outermost, with a stale `VirtualRoot`
entry that the outer dispatch must have removed when it returns. -/
def w6Req : Request := ⟨⟨["hello", "x"], "u"⟩, ⟨none, some ⟨["stale"], "q"⟩, "e"⟩, "r"⟩

/-- A mount serving `/a` with the probe handler. -/
def w7Mount : Mount := Mount.new.on "/a" probe

/-- A non-outermost request (`OriginalUrl` present) with a two-segment
`VirtualRoot` path. -/
def w7Req : Request :=
  ⟨⟨["a", "y"], "u"⟩, ⟨some ⟨["o"], "q"⟩, some ⟨["v1", "v2"], "q"⟩, "e"⟩, "r"⟩

/-- A mount serving `/hello` with the probe handler, for the C9 witness. -/
def w9Mount : Mount := Mount.new.on "/hello" probe

/-- A request for `/hello/x/` (one trailing empty segment). -/
def w9Req : Request := ⟨⟨["hello", "x", ""], "u"⟩, ⟨none, none, "e"⟩, "r"⟩

/-- A handler that overwrites the request path and fails, but leaves the
non-path, non-context parts of the request alone. -/
def w10Handler : Handler :=
  Handler.base (fun r =>
    ({ r with url := { r.url with path := ["mutated"] } },
     Except.error (HandlerError.other 3)))

/-- A mount serving `/a` with `w10Handler`. -/
def w10Mount : Mount := Mount.new.on "/a" w10Handler

/-- A request for `/a/z` entering outermost. -/
def w10Req : Request := ⟨⟨["a", "z"], "u"⟩, ⟨none, none, "e"⟩, "r"⟩

/-- Appending one trailing empty segment does not change the normalized
path. -/
theorem stripTrailingEmpty_append_empty (p : List String) :
    stripTrailingEmpty (p ++ [""]) = stripTrailingEmpty p := by
  induction p with
  | nil => rfl
  | cons s rest ih =>
    show stripTrailingEmpty (s :: (rest ++ [""])) = _
    simp only [stripTrailingEmpty, ih]

/-- Appending any number of trailing empty segments does not change the
normalized path. -/
theorem stripTrailingEmpty_append_replicate (k : Nat) (p : List String) :
    stripTrailingEmpty (p ++ List.replicate k "") = stripTrailingEmpty p := by
  induction k generalizing p with
  | zero => simp
  | succ k ih =>
    have h : p ++ List.replicate (k + 1) "" = (p ++ [""]) ++ List.replicate k "" := by
      simp [List.replicate_succ]
    rw [h, ih, stripTrailingEmpty_append_empty]

/-- Normalization is idempotent. -/
theorem stripTrailingEmpty_idem (p : List String) :
    stripTrailingEmpty (stripTrailingEmpty p) = stripTrailingEmpty p := by
  induction p with
  | nil => rfl
  | cons s rest ih =>
    cases h : stripTrailingEmpty rest with
    | nil =>
      have h1 : stripTrailingEmpty (s :: rest) = if s = "" then [] else [s] := by
        simp only [stripTrailingEmpty, h]
      by_cases hs : s = ""
      · rw [h1, if_pos hs]; rfl
      · rw [h1, if_neg hs]
        show (match stripTrailingEmpty ([] : List String) with
          | [] => if s = "" then [] else [s]
          | r :: rs => s :: r :: rs) = [s]
        simp [stripTrailingEmpty, hs]
    | cons r rs =>
      rw [h] at ih
      have h1 : stripTrailingEmpty (s :: rest) = s :: r :: rs := by
        simp only [stripTrailingEmpty, h]
      rw [h1]
      calc stripTrailingEmpty (s :: r :: rs)
          = (match stripTrailingEmpty (r :: rs) with
            | [] => if s = "" then [] else [s]
            | r' :: rs' => s :: r' :: rs') := by simp only [stripTrailingEmpty]
        _ = s :: r :: rs := by rw [ih]

/-- Normalization never lengthens the path. -/
theorem stripTrailingEmpty_length_le (p : List String) :
    (stripTrailingEmpty p).length ≤ p.length := by
  induction p with
  | nil => simp [stripTrailingEmpty]
  | cons s rest ih =>
    show (match stripTrailingEmpty rest with
      | [] => if s = "" then [] else [s]
      | r :: rs => s :: r :: rs).length ≤ rest.length + 1
    cases h : stripTrailingEmpty rest with
    | nil => by_cases hs : s = "" <;> simp [hs]
    | cons r rs =>
      rw [h] at ih
      simpa using ih

/-- A path with no empty segment at all is already normalized. -/
theorem stripTrailingEmpty_of_no_empty (p : List String) (h : ∀ s ∈ p, s ≠ "") :
    stripTrailingEmpty p = p := by
  induction p with
  | nil => rfl
  | cons s rest ih =>
    have hs : s ≠ "" := h s (by simp)
    have ihr : stripTrailingEmpty rest = rest := ih (fun x hx => h x (by simp [hx]))
    show (match stripTrailingEmpty rest with
      | [] => if s = "" then [] else [s]
      | r :: rs => s :: r :: rs) = s :: rest
    rw [ihr]
    cases rest with
    | nil => simp [hs]
    | cons r rs => rfl

/-- Splitting never produces an empty list of segments. -/
theorem splitSlash_ne_nil (cs : List Char) : splitSlash cs ≠ [] := by
  induction cs with
  | nil => simp [splitSlash]
  | cons c cs ih =>
    show (if c = '/' then "" :: splitSlash cs
      else match splitSlash cs with
        | [] => [String.mk [c]]
        | s :: ss => String.mk (c :: s.data) :: ss) ≠ []
    by_cases hc : c = '/'
    · simp [hc]
    · rw [if_neg hc]
      cases h : splitSlash cs with
      | nil => simp
      | cons s ss => simp

/-- A trailing slash contributes exactly one final empty segment. -/
theorem splitSlash_append_slash (cs : List Char) :
    splitSlash (cs ++ ['/']) = splitSlash cs ++ [""] := by
  induction cs with
  | nil => rfl
  | cons c cs ih =>
    show (if c = '/' then "" :: splitSlash (cs ++ ['/'])
      else match splitSlash (cs ++ ['/']) with
        | [] => [String.mk [c]]
        | s :: ss => String.mk (c :: s.data) :: ss) = _
    by_cases hc : c = '/'
    · simp [hc, ih, splitSlash]
    · rw [if_neg hc, ih]
      cases h : splitSlash cs with
      | nil => exact absurd h (splitSlash_ne_nil cs)
      | cons s ss =>
        show String.mk (c :: s.data) :: (ss ++ [""]) = _
        simp [splitSlash, if_neg hc, h]

/-- A trailing slash on a route string is invisible to route parsing. -/
theorem parseRoute_append_slash (route : String) :
    parseRoute (route ++ "/") = parseRoute route := by
  cases route with
  | mk data =>
    show ((splitSlash (data ++ ['/'])).filter (fun s => s ≠ "")) = _
    rw [splitSlash_append_slash]
    simp [parseRoute]


/-- The empty trie holds no binding at any key. -/
theorem Trie.get?_empty (q : List String) : (Trie.mk none []).get? q = none := by
  cases q <;> rfl

/-- Unfolding equation for exact lookup when no child matches. -/
theorem Trie.get?_cons_none (tv : Option Match) (cs : List (String × Trie)) (s : String)
    (rest : List String) (hf : Trie.find? cs s = none) :
    (Trie.mk tv cs).get? (s :: rest) = none := by
  simp only [Trie.get?, hf]

/-- Unfolding equation for exact lookup through a matching child. -/
theorem Trie.get?_cons_some (tv : Option Match) (cs : List (String × Trie)) (s : String)
    (rest : List String) (c : Trie) (hf : Trie.find? cs s = some c) :
    (Trie.mk tv cs).get? (s :: rest) = c.get? rest := by
  simp only [Trie.get?, hf]

/-- Unfolding equation for the ancestor search when no child matches. -/
theorem Trie.getAncestor_cons_none (tv : Option Match) (cs : List (String × Trie))
    (s : String) (rest : List String) (hf : Trie.find? cs s = none) :
    (Trie.mk tv cs).getAncestor (s :: rest) = tv := by
  simp only [Trie.getAncestor, hf]

/-- Unfolding equation for the ancestor search through a matching child. -/
theorem Trie.getAncestor_cons_some (tv : Option Match) (cs : List (String × Trie))
    (s : String) (rest : List String) (c : Trie) (hf : Trie.find? cs s = some c) :
    (Trie.mk tv cs).getAncestor (s :: rest) = (c.getAncestor rest).orElse (fun _ => tv) := by
  simp only [Trie.getAncestor, hf]

/-- Child lookup after a child replacement: the replaced segment now maps to
the new child, all other segments are unaffected. -/
theorem Trie.find?_replaceChild (cs : List (String × Trie)) (s : String) (c : Trie)
    (r : String) :
    Trie.find? (Trie.replaceChild cs s c) r = if s = r then some c else Trie.find? cs r := by
  induction cs with
  | nil =>
    simp only [Trie.replaceChild, Trie.find?]
  | cons kt cs ih =>
    obtain ⟨k, t⟩ := kt
    by_cases hk : k = s
    · subst hk
      simp only [Trie.replaceChild, if_pos rfl, Trie.find?]
      by_cases hr : k = r
      · simp [hr]
      · have hr' : ¬k = r := hr
        simp [hr']
    · simp only [Trie.replaceChild, if_neg hk, Trie.find?]
      by_cases hr : k = r
      · subst hr
        have hs : ¬s = k := fun h => hk h.symm
        simp [hs]
      · simp [hr, ih]

/-- Exact lookup after an insertion: the inserted key now holds the new
value, every other key is unaffected. -/
theorem Trie.get?_insert (key : List String) (t : Trie) (v : Match) (q : List String) :
    (t.insert key v).get? q = if q = key then some v else t.get? q := by
  induction key generalizing t q with
  | nil =>
    obtain ⟨tv, cs⟩ := t
    cases q with
    | nil => simp [Trie.insert, Trie.get?]
    | cons s q' => simp [Trie.insert, Trie.get?]
  | cons k key' ih =>
    obtain ⟨tv, cs⟩ := t
    have hins : (Trie.mk tv cs).insert (k :: key') v =
        Trie.mk tv (Trie.replaceChild cs k
          (((Trie.find? cs k).getD (Trie.mk none [])).insert key' v)) := rfl
    rw [hins]
    cases q with
    | nil =>
      simp [Trie.get?]
    | cons s q' =>
      have hf := Trie.find?_replaceChild cs k
        (((Trie.find? cs k).getD (Trie.mk none [])).insert key' v) s
      by_cases hk : k = s
      · subst hk
        rw [if_pos rfl] at hf
        rw [Trie.get?_cons_some _ _ _ _ _ hf, ih]
        by_cases hq : q' = key'
        · subst hq
          simp
        · have hne : ¬(k :: q' = k :: key') := by simp [hq]
          rw [if_neg hq, if_neg hne]
          cases hfk : Trie.find? cs k with
          | none =>
            show ((none : Option Trie).getD (Trie.mk none [])).get? q'
              = (Trie.mk tv cs).get? (k :: q')
            rw [Trie.get?_cons_none _ _ _ _ hfk]
            exact Trie.get?_empty q'
          | some c =>
            show ((some c).getD (Trie.mk none [])).get? q'
              = (Trie.mk tv cs).get? (k :: q')
            rw [Trie.get?_cons_some _ _ _ _ _ hfk]
            rfl
      · rw [if_neg hk] at hf
        have hne : ¬(s :: q' = k :: key') := by
          intro hcon
          injection hcon with h1 _
          exact hk h1.symm
        rw [if_neg hne]
        cases hfs : Trie.find? cs s with
        | none =>
          rw [Trie.get?_cons_none _ _ _ _ (hf.trans hfs),
            Trie.get?_cons_none _ _ _ _ hfs]
        | some c =>
          rw [Trie.get?_cons_some _ _ _ _ _ (hf.trans hfs),
            Trie.get?_cons_some _ _ _ _ _ hfs]

/-- In a trie holding exactly one binding, any successful exact lookup
returns that binding. -/
theorem Trie.get?_single (key : List String) (v : Match) (q : List String) (mt : Match)
    (h : ((Trie.mk none []).insert key v).get? q = some mt) : mt = v := by
  rw [Trie.get?_insert] at h
  by_cases hq : q = key
  · rw [if_pos hq] at h
    injection h with h
    exact h.symm
  · rw [if_neg hq, Trie.get?_empty] at h
    exact absurd h (by simp)

/-- Soundness of the ancestor search: any returned binding is the exact
binding of some prefix of the key. -/
theorem Trie.getAncestor_sound (p : List String) (t : Trie) (v : Match)
    (h : t.getAncestor p = some v) : ∃ q, q <+: p ∧ t.get? q = some v := by
  induction p generalizing t with
  | nil =>
    obtain ⟨tv, cs⟩ := t
    exact ⟨[], List.nil_prefix, h⟩
  | cons s p' ih =>
    obtain ⟨tv, cs⟩ := t
    cases hf : Trie.find? cs s with
    | none =>
      rw [Trie.getAncestor_cons_none _ _ _ _ hf] at h
      exact ⟨[], List.nil_prefix, h⟩
    | some c =>
      rw [Trie.getAncestor_cons_some _ _ _ _ _ hf] at h
      cases hg : c.getAncestor p' with
      | none =>
        rw [hg] at h
        exact ⟨[], List.nil_prefix, h⟩
      | some w =>
        rw [hg] at h
        have hw : w = v := by injection h
        subst hw
        obtain ⟨q', hq1, hq2⟩ := ih c hg
        exact ⟨s :: q', List.cons_prefix_cons.mpr ⟨rfl, hq1⟩,
          by rw [Trie.get?_cons_some _ _ _ _ _ hf]; exact hq2⟩

/-- Completeness of the ancestor search for the deepest binding: if `q` is a
prefix of `p` carrying a binding and no strictly longer prefix of `p`
carries one, the ancestor search returns exactly `q`'s binding. -/
theorem Trie.getAncestor_deepest (p : List String) (t : Trie) (q : List String) (v : Match)
    (hq : t.get? q = some v) (hpre : q <+: p)
    (hmax : ∀ q', q' <+: p → q.length < q'.length → t.get? q' = none) :
    t.getAncestor p = some v := by
  induction p generalizing t q with
  | nil =>
    obtain ⟨tv, cs⟩ := t
    have hq0 : q = [] := List.prefix_nil.mp hpre
    subst hq0
    exact hq
  | cons s p' ih =>
    obtain ⟨tv, cs⟩ := t
    cases q with
    | nil =>
      have htv : tv = some v := hq
      cases hf : Trie.find? cs s with
      | none => rw [Trie.getAncestor_cons_none _ _ _ _ hf]; exact htv
      | some c =>
        rw [Trie.getAncestor_cons_some _ _ _ _ _ hf]
        have hnone : c.getAncestor p' = none := by
          cases hg : c.getAncestor p' with
          | none => rfl
          | some w =>
            obtain ⟨q', hq1, hq2⟩ := Trie.getAncestor_sound p' c w hg
            have hzero : (Trie.mk tv cs).get? (s :: q') = none :=
              hmax (s :: q') (List.cons_prefix_cons.mpr ⟨rfl, hq1⟩) (by simp)
            rw [Trie.get?_cons_some _ _ _ _ _ hf, hq2] at hzero
            exact absurd hzero (by simp)
        rw [hnone]
        exact htv
    | cons s' q'' =>
      obtain ⟨hss, hpre'⟩ := List.cons_prefix_cons.mp hpre
      subst hss
      cases hf : Trie.find? cs s' with
      | none =>
        rw [Trie.get?_cons_none _ _ _ _ hf] at hq
        exact absurd hq (by simp)
      | some c =>
        rw [Trie.get?_cons_some _ _ _ _ _ hf] at hq
        have hmax' : ∀ r', r' <+: p' → q''.length < r'.length → c.get? r' = none := by
          intro r' hr hl
          have h1 : (Trie.mk tv cs).get? (s' :: r') = none :=
            hmax (s' :: r') (List.cons_prefix_cons.mpr ⟨rfl, hr⟩) (by simpa using hl)
          rw [Trie.get?_cons_some _ _ _ _ _ hf] at h1
          exact h1
        rw [Trie.getAncestor_cons_some _ _ _ _ _ hf, ih c q'' hq hpre' hmax']
        rfl

/-- The singleton-chain trie obtained by one insertion into the empty trie
answers the ancestor search with its unique binding on any extension of
the inserted key. -/
theorem Trie.getAncestor_insert_append (key rest : List String) (v : Match) :
    ((Trie.mk none []).insert key v).getAncestor (key ++ rest) = some v := by
  induction key generalizing rest with
  | nil =>
    cases rest with
    | nil => rfl
    | cons s p' => rfl
  | cons k key' ih =>
    have hins : (Trie.mk none []).insert (k :: key') v =
        Trie.mk none [(k, (Trie.mk none []).insert key' v)] := rfl
    rw [hins]
    have hf : Trie.find? [(k, (Trie.mk none []).insert key' v)] k
        = some ((Trie.mk none []).insert key' v) := by simp [Trie.find?]
    rw [show (k :: key') ++ rest = k :: (key' ++ rest) from rfl,
      Trie.getAncestor_cons_some _ _ _ _ _ hf, ih rest]
    rfl

/-- Replacing the same child twice keeps only the second replacement. -/
theorem Trie.replaceChild_replaceChild (cs : List (String × Trie)) (s : String)
    (a b : Trie) :
    Trie.replaceChild (Trie.replaceChild cs s a) s b = Trie.replaceChild cs s b := by
  induction cs with
  | nil => simp [Trie.replaceChild]
  | cons kt cs ih =>
    obtain ⟨k, t⟩ := kt
    by_cases hk : k = s
    · subst hk
      simp [Trie.replaceChild]
    · simp [Trie.replaceChild, hk, ih]

/-- Inserting twice at the same key keeps only the second binding. -/
theorem Trie.insert_insert (key : List String) (t : Trie) (v' v : Match) :
    (t.insert key v').insert key v = t.insert key v := by
  induction key generalizing t with
  | nil =>
    obtain ⟨tv, cs⟩ := t
    rfl
  | cons k key' ih =>
    obtain ⟨tv, cs⟩ := t
    have h1 : (Trie.mk tv cs).insert (k :: key') v' =
        Trie.mk tv (Trie.replaceChild cs k
          (((Trie.find? cs k).getD (Trie.mk none [])).insert key' v')) := rfl
    have h2 : ∀ cs' : List (String × Trie), (Trie.mk tv cs').insert (k :: key') v =
        Trie.mk tv (Trie.replaceChild cs' k
          (((Trie.find? cs' k).getD (Trie.mk none [])).insert key' v)) := fun _ => rfl
    rw [h1, h2, h2]
    have hf : Trie.find? (Trie.replaceChild cs k
        (((Trie.find? cs k).getD (Trie.mk none [])).insert key' v')) k
        = some (((Trie.find? cs k).getD (Trie.mk none [])).insert key' v') := by
      rw [Trie.find?_replaceChild]
      simp
    rw [hf]
    simp only [Option.getD]
    rw [ih, Trie.replaceChild_replaceChild]

/-- Dispatch with no matching binding: `Mount::handle` returns the request
untouched together with the `NoMatch` error (src/mount.rs line 101). -/
theorem Mount.handleCore_of_no_match
    (recur : Handler → Request → Request × Except HandlerError Response)
    (m : Mount) (req : Request) (h : m.matchFor req.url.path = none) :
    Mount.handleCore recur m req = (req, Except.error HandlerError.noMatch) := by
  have h' : m.inner.getAncestor (stripTrailingEmpty req.url.path) = none := h
  simp only [Mount.handleCore, h']

/-- Dispatch with a matching binding unfolds to: run the matched handler on
the entered request, then exit. -/
theorem Mount.handleCore_of_match
    (recur : Handler → Request → Request × Except HandlerError Response)
    (m : Mount) (req : Request) (mt : Match) (h : m.matchFor req.url.path = some mt) :
    Mount.handleCore recur m req =
      (Mount.dispatchExit
        (recur mt.handler
          (Mount.dispatchEnter req (stripTrailingEmpty req.url.path) mt
            (!req.extensions.originalUrl.isSome))).fst
        req.url.path (stripTrailingEmpty req.url.path)
        (!req.extensions.originalUrl.isSome),
       (recur mt.handler
          (Mount.dispatchEnter req (stripTrailingEmpty req.url.path) mt
            (!req.extensions.originalUrl.isSome))).snd) := by
  have h' : m.inner.getAncestor (stripTrailingEmpty req.url.path) = some mt := h
  simp only [Mount.handleCore, h']

/-- `Mount::handle` on a request with no matching binding. -/
theorem Mount.handle_of_no_match (fuel : Nat) (m : Mount) (req : Request)
    (h : m.matchFor req.url.path = none) :
    Mount.handle fuel m req = (req, Except.error HandlerError.noMatch) :=
  Mount.handleCore_of_no_match (Handler.run fuel) m req h

/-- `Mount::handle` on a request with a matching binding. -/
theorem Mount.handle_of_match (fuel : Nat) (m : Mount) (req : Request) (mt : Match)
    (h : m.matchFor req.url.path = some mt) :
    Mount.handle fuel m req =
      (Mount.dispatchExit
        (Handler.run fuel mt.handler
          (Mount.dispatchEnter req (stripTrailingEmpty req.url.path) mt
            (!req.extensions.originalUrl.isSome))).fst
        req.url.path (stripTrailingEmpty req.url.path)
        (!req.extensions.originalUrl.isSome),
       (Handler.run fuel mt.handler
          (Mount.dispatchEnter req (stripTrailingEmpty req.url.path) mt
            (!req.extensions.originalUrl.isSome))).snd) :=
  Mount.handleCore_of_match (Handler.run fuel) m req mt h

/-- The entered request's path is the original path with the first
`matched.length` segments removed. -/
theorem Mount.dispatchEnter_url_path (req : Request) (root : List String)
    (matched : Match) (io : Bool) :
    (Mount.dispatchEnter req root matched io).url.path
      = req.url.path.drop matched.length := by
  cases io <;> rfl

/-- Entering touches neither the non-path URL components, the other typemap
entries, nor the non-URL request fields. -/
theorem Mount.dispatchEnter_otherState (req : Request) (root : List String)
    (matched : Match) (io : Bool) :
    otherState (Mount.dispatchEnter req root matched io) = otherState req := by
  cases io <;> rfl

/-- Entering as the outermost mount stores the unmodified URL under
`OriginalUrl`. -/
theorem Mount.dispatchEnter_originalUrl_outer (req : Request) (root : List String)
    (matched : Match) :
    (Mount.dispatchEnter req root matched true).extensions.originalUrl
      = some req.url := rfl

/-- Entering as an inner mount leaves `OriginalUrl` as it was. -/
theorem Mount.dispatchEnter_originalUrl_inner (req : Request) (root : List String)
    (matched : Match) :
    (Mount.dispatchEnter req root matched false).extensions.originalUrl
      = req.extensions.originalUrl := rfl

/-- Entering as the outermost mount sets `VirtualRoot` to the request URL
with path `root`. -/
theorem Mount.dispatchEnter_virtualRoot_outer (req : Request) (root : List String)
    (matched : Match) :
    (Mount.dispatchEnter req root matched true).extensions.virtualRoot
      = some { req.url with path := root } := rfl

/-- Entering as an inner mount appends `root` to the `VirtualRoot` path. -/
theorem Mount.dispatchEnter_virtualRoot_inner (req : Request) (root : List String)
    (matched : Match) :
    (Mount.dispatchEnter req root matched false).extensions.virtualRoot
      = req.extensions.virtualRoot.map (fun old => { old with path := old.path ++ root }) := rfl

/-- Exiting restores the captured original path unconditionally. -/
theorem Mount.dispatchExit_url_path (req3 : Request) (original root : List String)
    (io : Bool) :
    (Mount.dispatchExit req3 original root io).url.path = original := by
  cases io <;> rfl

/-- Exiting touches neither the non-path URL components, the other typemap
entries, nor the non-URL request fields. -/
theorem Mount.dispatchExit_otherState (req3 : Request) (original root : List String)
    (io : Bool) :
    otherState (Mount.dispatchExit req3 original root io) = otherState req3 := by
  cases io <;> rfl

/-- Exiting the outermost mount removes `OriginalUrl`. -/
theorem Mount.dispatchExit_originalUrl_outer (req3 : Request) (original root : List String) :
    (Mount.dispatchExit req3 original root true).extensions.originalUrl = none := rfl

/-- Exiting the outermost mount removes `VirtualRoot`. -/
theorem Mount.dispatchExit_virtualRoot_outer (req3 : Request) (original root : List String) :
    (Mount.dispatchExit req3 original root true).extensions.virtualRoot = none := rfl

/-- Exiting an inner mount leaves `OriginalUrl` as the handler left it. -/
theorem Mount.dispatchExit_originalUrl_inner (req3 : Request) (original root : List String) :
    (Mount.dispatchExit req3 original root false).extensions.originalUrl
      = req3.extensions.originalUrl := rfl

/-- Exiting an inner mount truncates the `VirtualRoot` path by the length of
`root`. -/
theorem Mount.dispatchExit_virtualRoot_inner (req3 : Request) (original root : List String) :
    (Mount.dispatchExit req3 original root false).extensions.virtualRoot
      = req3.extensions.virtualRoot.map
          (fun old => { old with path := old.path.take (old.path.length - root.length) }) := rfl

/-- Running a base handler is applying its function, at any fuel. -/
theorem Handler.run_base (fuel : Nat) (f : Request → Request × Except HandlerError Response)
    (req : Request) : Handler.run fuel (Handler.base f) req = f req := by
  cases fuel <;> rfl

/-- Running a nested mount with positive fuel is `Mount::handle` at the
decremented fuel. -/
theorem Handler.run_mount (fuel : Nat) (t : Trie) (req : Request) :
    Handler.run (fuel + 1) (Handler.mount t) req = Mount.handle fuel ⟨t⟩ req := rfl

/-- Entering an inner mount grows the `VirtualRoot` path length by the
length of the normalized path. -/
theorem virtualRootLen_dispatchEnter_inner (req : Request) (root : List String)
    (matched : Match) :
    virtualRootLen (Mount.dispatchEnter req root matched false)
      = (virtualRootLen req).map (fun n => n + root.length) := by
  cases hv : req.extensions.virtualRoot with
  | none => simp [virtualRootLen, Mount.dispatchEnter_virtualRoot_inner, hv]
  | some u => simp [virtualRootLen, Mount.dispatchEnter_virtualRoot_inner, hv]

/-- Exiting an inner mount shrinks the `VirtualRoot` path length by the
length of the normalized path. -/
theorem virtualRootLen_dispatchExit_inner (req3 : Request) (original root : List String) :
    virtualRootLen (Mount.dispatchExit req3 original root false)
      = (virtualRootLen req3).map (fun n => n - root.length) := by
  cases hv : req3.extensions.virtualRoot with
  | none => simp [virtualRootLen, Mount.dispatchExit_virtualRoot_inner, hv]
  | some u =>
    have hlen : (u.path.take (u.path.length - root.length)).length
        = u.path.length - root.length := by
      rw [List.length_take]
      omega
    simp [virtualRootLen, Mount.dispatchExit_virtualRoot_inner, hv, hlen]

/-- Any handler whose reachable base handlers preserve the `VirtualRoot`
path length preserves it too, when run on a request carrying
`OriginalUrl`: each mount level appends and then truncates the same number
of segments (push/pop symmetry of src/mount.rs lines 114-118 and 138-143). -/
theorem Handler.run_preserves_virtualRootLen (fuel : Nat) :
    ∀ (h : Handler), HandlerPreserves virtualRootLen h →
      ∀ r, r.extensions.originalUrl.isSome = true →
      virtualRootLen (Handler.run fuel h r).fst = virtualRootLen r := by
  induction fuel with
  | zero =>
    intro h hp r hr
    cases hp with
    | base f hf => exact hf r hr
    | mount t ht => rfl
  | succ fuel ih =>
    intro h hp r hr
    cases hp with
    | base f hf => exact hf r hr
    | mount t ht =>
      rw [Handler.run_mount]
      cases hm : Mount.matchFor ⟨t⟩ r.url.path with
      | none => rw [Mount.handle_of_no_match fuel _ r hm]
      | some mt =>
        rw [Mount.handle_of_match fuel _ r mt hm]
        have hio : (!r.extensions.originalUrl.isSome) = false := by rw [hr]; rfl
        rw [hio]
        obtain ⟨q, hq1, hq2⟩ := Trie.getAncestor_sound (stripTrailingEmpty r.url.path) t mt hm
        have hph : HandlerPreserves virtualRootLen mt.handler := ht q mt hq2
        have hent : (Mount.dispatchEnter r (stripTrailingEmpty r.url.path) mt
            false).extensions.originalUrl.isSome = true := by
          rw [Mount.dispatchEnter_originalUrl_inner]; exact hr
        have hrun := ih mt.handler hph _ hent
        rw [virtualRootLen_dispatchExit_inner, hrun, virtualRootLen_dispatchEnter_inner]
        cases hv : virtualRootLen r with
        | none => rfl
        | some n => simp

/-- Any handler whose reachable base handlers leave the non-path,
non-context parts of the request alone leaves them alone too, when run on
a request carrying `OriginalUrl`. -/
theorem Handler.run_preserves_otherState (fuel : Nat) :
    ∀ (h : Handler), HandlerPreserves otherState h →
      ∀ r, r.extensions.originalUrl.isSome = true →
      otherState (Handler.run fuel h r).fst = otherState r := by
  induction fuel with
  | zero =>
    intro h hp r hr
    cases hp with
    | base f hf => exact hf r hr
    | mount t ht => rfl
  | succ fuel ih =>
    intro h hp r hr
    cases hp with
    | base f hf => exact hf r hr
    | mount t ht =>
      rw [Handler.run_mount]
      cases hm : Mount.matchFor ⟨t⟩ r.url.path with
      | none => rw [Mount.handle_of_no_match fuel _ r hm]
      | some mt =>
        rw [Mount.handle_of_match fuel _ r mt hm]
        have hio : (!r.extensions.originalUrl.isSome) = false := by rw [hr]; rfl
        rw [hio]
        obtain ⟨q, hq1, hq2⟩ := Trie.getAncestor_sound (stripTrailingEmpty r.url.path) t mt hm
        have hph : HandlerPreserves otherState mt.handler := ht q mt hq2
        have hent : (Mount.dispatchEnter r (stripTrailingEmpty r.url.path) mt
            false).extensions.originalUrl.isSome = true := by
          rw [Mount.dispatchEnter_originalUrl_inner]; exact hr
        have hrun := ih mt.handler hph _ hent
        rw [Mount.dispatchExit_otherState, hrun, Mount.dispatchEnter_otherState]

/-- In a mount built through `Mount::new` and `Mount::on`, the stored
`length` of every binding equals the depth of the trie node holding it
(the number of segments of its registered route). -/
theorem Built.lengthCorrect {m : Mount} (hb : Built m) :
    ∀ q mt, m.inner.get? q = some mt → mt.length = q.length := by
  induction hb with
  | new =>
    intro q mt h
    have h' : (Trie.mk none []).get? q = some mt := h
    rw [Trie.get?_empty] at h'
    exact absurd h' (by simp)
  | register m route hdl hb ih =>
    intro q mt h
    have h' : (m.inner.insert (parseRoute route)
        (Match.mk hdl (parseRoute route).length)).get? q = some mt := h
    rw [Trie.get?_insert] at h'
    by_cases hq : q = parseRoute route
    · rw [if_pos hq] at h'
      injection h' with h'
      rw [← h', hq]
      rfl
    · rw [if_neg hq] at h'
      exact ih q mt h'

/-- C3: for a registered binding at `q` that is an ancestor of the
normalized request path, with no deeper binding-carrying ancestor, dispatch
selects exactly `q`'s binding: the deepest registered binding that is an
ancestor of the normalized path always wins, so with `R1` a strict
ancestor prefix of `R2` and `R2` the deepest match, `R2`'s handler is
selected and not `R1`'s. -/
theorem C3_deepest_binding_wins (m : Mount) (p q : List String) (v : Match)
    (hq : m.inner.get? q = some v) (hpre : q <+: stripTrailingEmpty p)
    (hdeep : ∀ q', q' <+: stripTrailingEmpty p → q.length < q'.length →
      m.inner.get? q' = none) :
    m.matchFor p = some v :=
  Trie.getAncestor_deepest (stripTrailingEmpty p) m.inner q v hq hpre hdeep

/-- Witness for C3: with `/foo` and `/foo/bar` registered, the request
`/foo/bar/baz` resolves to the binding of `/foo/bar`, not `/foo`. -/
theorem C3_witness :
    w3Mount.inner.get? ["foo", "bar"] = some (Match.mk w3HandlerB 2)
    ∧ Mount.matchFor w3Mount ["foo", "bar", "baz"] = some (Match.mk w3HandlerB 2) := by
  refine ⟨rfl, C3_deepest_binding_wins w3Mount ["foo", "bar", "baz"] ["foo", "bar"]
    (Match.mk w3HandlerB 2) rfl ⟨["baz"], rfl⟩ ?_⟩
  intro q' h1 h2
  have h3 : q' <+: ["foo", "bar", "baz"] := h1
  have h4 : q'.length ≤ 3 := h3.length_le
  have h2' : 2 < q'.length := h2
  have h5 : q'.length = 3 := by omega
  have h6 : q' = ["foo", "bar", "baz"] := by
    have h7 := List.prefix_iff_eq_take.mp h3
    rw [h5] at h7
    simpa using h7
  rw [h6]
  rfl

/-- C4: appending any number of trailing empty segments (trailing slashes)
to a request path does not change which binding dispatch matches, and the
matched binding is that of the path with all trailing empty segments
removed. -/
theorem C4_trailing_slash_idempotent (m : Mount) (p : List String) (k : Nat) :
    m.matchFor (p ++ List.replicate k "") = m.matchFor p
    ∧ m.matchFor p = m.matchFor (stripTrailingEmpty p) := by
  constructor
  · show m.inner.getAncestor (stripTrailingEmpty (p ++ List.replicate k ""))
      = m.inner.getAncestor (stripTrailingEmpty p)
    rw [stripTrailingEmpty_append_replicate]
  · show m.inner.getAncestor (stripTrailingEmpty p)
      = m.inner.getAncestor (stripTrailingEmpty (stripTrailingEmpty p))
    rw [stripTrailingEmpty_idem]

/-- C9: for a mount built through the public API, any binding returned by
the dispatch lookup has its stored `length` at most the normalized path
length, which is at most the original path length — so the prefix-stripping
slice at src/mount.rs line 126 is always in bounds. -/
theorem C9_prefix_in_bounds (m : Mount) (req : Request) (mt : Match)
    (hb : Built m) (h : m.matchFor req.url.path = some mt) :
    mt.length ≤ (stripTrailingEmpty req.url.path).length
    ∧ (stripTrailingEmpty req.url.path).length ≤ req.url.path.length
    ∧ mt.length ≤ req.url.path.length := by
  obtain ⟨q, hq1, hq2⟩ :=
    Trie.getAncestor_sound (stripTrailingEmpty req.url.path) m.inner mt h
  have hlen : mt.length = q.length := hb.lengthCorrect q mt hq2
  have h1 : q.length ≤ (stripTrailingEmpty req.url.path).length := hq1.length_le
  have h2 := stripTrailingEmpty_length_le req.url.path
  exact ⟨by omega, h2, by omega⟩

/-- Witness for C9: the mount serving `/hello` matches `/hello/x/` with
stored length 1, within both the normalized length 2 and the original
length 3. -/
theorem C9_witness :
    Built w9Mount
    ∧ Mount.matchFor w9Mount w9Req.url.path = some (Match.mk probe 1)
    ∧ ((Match.mk probe 1).length ≤ (stripTrailingEmpty w9Req.url.path).length
       ∧ (stripTrailingEmpty w9Req.url.path).length ≤ w9Req.url.path.length
       ∧ (Match.mk probe 1).length ≤ w9Req.url.path.length) := by
  have hb : Built w9Mount := Built.register Mount.new "/hello" probe Built.new
  exact ⟨hb, rfl, C9_prefix_in_bounds w9Mount w9Req (Match.mk probe 1) hb rfl⟩

/-- C2: for a dispatch that finds a binding of stored length `n`, the
matched handler is invoked on a request whose path is the original,
un-normalized path with its first `n` segments removed, and after the
dispatch returns — whatever the handler did — the request's path is exactly
the original path again.  The third conjunct records that `Mount::handle`
is precisely this enter-run-exit composition. -/
theorem C2_path_strip_and_restore (fuel : Nat) (m : Mount) (req : Request) (mt : Match)
    (h : m.matchFor req.url.path = some mt) :
    (Mount.dispatchEnter req (stripTrailingEmpty req.url.path) mt
        (!req.extensions.originalUrl.isSome)).url.path
      = req.url.path.drop mt.length
    ∧ (Mount.handle fuel m req).fst.url.path = req.url.path
    ∧ Mount.handle fuel m req =
        (Mount.dispatchExit
          (Handler.run fuel mt.handler
            (Mount.dispatchEnter req (stripTrailingEmpty req.url.path) mt
              (!req.extensions.originalUrl.isSome))).fst
          req.url.path (stripTrailingEmpty req.url.path)
          (!req.extensions.originalUrl.isSome),
         (Handler.run fuel mt.handler
            (Mount.dispatchEnter req (stripTrailingEmpty req.url.path) mt
              (!req.extensions.originalUrl.isSome))).snd) := by
  refine ⟨Mount.dispatchEnter_url_path req _ mt _, ?_,
    Mount.handle_of_match fuel m req mt h⟩
  rw [Mount.handle_of_match fuel m req mt h]
  exact Mount.dispatchExit_url_path _ _ _ _

/-- Witness for C2: dispatching `/hello/world/` through the `/hello` mount
lets the probe see path `["world", ""]` (the un-normalized remainder) and
restores `["hello", "world", ""]` afterwards. -/
theorem C2_witness :
    Mount.matchFor w2Mount w2Req.url.path = some (Match.mk probe 1)
    ∧ (Mount.dispatchEnter w2Req (stripTrailingEmpty w2Req.url.path) (Match.mk probe 1)
        (!w2Req.extensions.originalUrl.isSome)).url.path = ["world", ""]
    ∧ (Mount.handle 1 w2Mount w2Req).fst.url.path = ["hello", "world", ""] := by
  have h := C2_path_strip_and_restore 1 w2Mount w2Req (Match.mk probe 1) rfl
  refine ⟨rfl, ?_, h.2.1⟩
  rw [h.1]
  rfl

/-- C5 counterexample: with `/a` mounted to an inner mount that has no
registrations, dispatching `/a/x` fails with `NoMatch` even though the
binding at `/a` is an ancestor of the normalized path — refuting "fails
with NoMatch only if no registered binding is an ancestor". -/
theorem C5_counterexample :
    (Mount.handle 1 c5Mount c5Req).snd = Except.error HandlerError.noMatch
    ∧ Mount.matchFor c5Mount c5Req.url.path ≠ none := by
  constructor
  · rfl
  · have h : Mount.matchFor c5Mount c5Req.url.path
        = some (Match.mk (Handler.mount Mount.new.inner) 1) := rfl
    rw [h]
    exact Option.some_ne_none _

/-- C5 amended: if the dispatch lookup finds no ancestor binding, dispatch
fails with `NoMatch` and returns the request exactly as received (no
mutation at all); conversely, a `NoMatch` failure means either the lookup
found nothing or the matched handler itself returned `NoMatch`, which is
propagated verbatim. -/
theorem C5_amended_no_match_iff (fuel : Nat) (m : Mount) (req : Request) :
    (Mount.matchFor m req.url.path = none →
      Mount.handle fuel m req = (req, Except.error HandlerError.noMatch))
    ∧ ((Mount.handle fuel m req).snd = Except.error HandlerError.noMatch →
      Mount.matchFor m req.url.path = none
      ∨ ∃ mt, Mount.matchFor m req.url.path = some mt
          ∧ (Handler.run fuel mt.handler
              (Mount.dispatchEnter req (stripTrailingEmpty req.url.path) mt
                (!req.extensions.originalUrl.isSome))).snd
            = Except.error HandlerError.noMatch) := by
  constructor
  · intro h
    exact Mount.handle_of_no_match fuel m req h
  · intro hsnd
    cases hm : Mount.matchFor m req.url.path with
    | none => exact Or.inl rfl
    | some mt =>
      refine Or.inr ⟨mt, rfl, ?_⟩
      rw [Mount.handle_of_match fuel m req mt hm] at hsnd
      exact hsnd

/-- Witness for C5 (amended): dispatching `/notfound` when only `/hello` is
registered fails with `NoMatch` and returns the request — path and all
context entries included — exactly as received. -/
theorem C5_witness :
    Mount.matchFor w5Mount w5Req.url.path = none
    ∧ Mount.handle 1 w5Mount w5Req = (w5Req, Except.error HandlerError.noMatch) :=
  ⟨rfl, (C5_amended_no_match_iff 1 w5Mount w5Req).1 rfl⟩

/-- C6: an outermost dispatch (entered with `OriginalUrl` absent) that finds
a match removes both `OriginalUrl` and `VirtualRoot` from the context when
it returns, regardless of what the handler did or whether it failed
(src/mount.rs lines 133-137). -/
theorem C6_outer_context_cleanup (fuel : Nat) (m : Mount) (req : Request) (mt : Match)
    (h0 : req.extensions.originalUrl = none) (h : m.matchFor req.url.path = some mt) :
    (Mount.handle fuel m req).fst.extensions.originalUrl = none
    ∧ (Mount.handle fuel m req).fst.extensions.virtualRoot = none := by
  rw [Mount.handle_of_match fuel m req mt h]
  have hio : (!req.extensions.originalUrl.isSome) = true := by rw [h0]; rfl
  rw [hio]
  exact ⟨rfl, rfl⟩

/-- Witness for C6: an outermost dispatch of `/hello/x` whose handler fails
(and with a stale `VirtualRoot` entry present at entry) still ends with
both context keys absent. -/
theorem C6_witness :
    w6Req.extensions.originalUrl = none
    ∧ Mount.matchFor w6Mount w6Req.url.path = some (Match.mk w6Handler 1)
    ∧ (Mount.handle 1 w6Mount w6Req).fst.extensions.originalUrl = none
    ∧ (Mount.handle 1 w6Mount w6Req).fst.extensions.virtualRoot = none := by
  have h := C6_outer_context_cleanup 1 w6Mount w6Req (Match.mk w6Handler 1) rfl rfl
  exact ⟨rfl, rfl, h.1, h.2⟩

/-- C7: a non-outermost dispatch (entered with `OriginalUrl` present) whose
matched handler — at any nesting depth, including further nested mounts —
preserves the `VirtualRoot` path length, restores the `VirtualRoot` path
length to its pre-entry value when it returns, on success and error paths
alike (the entry append and exit truncation of src/mount.rs lines 114-118
and 138-143 cancel). -/
theorem C7_virtual_root_push_pop (fuel : Nat) (m : Mount) (req : Request)
    (h0 : req.extensions.originalUrl.isSome = true)
    (hH : ∀ q mt, m.inner.get? q = some mt → HandlerPreserves virtualRootLen mt.handler) :
    virtualRootLen (Mount.handle fuel m req).fst = virtualRootLen req := by
  have hmp : HandlerPreserves virtualRootLen (Handler.mount m.inner) :=
    HandlerPreserves.mount m.inner hH
  have hrun := Handler.run_preserves_virtualRootLen (fuel + 1)
    (Handler.mount m.inner) hmp req h0
  rw [Handler.run_mount] at hrun
  exact hrun

/-- Witness for C7: a non-outermost dispatch of `/a/y` through the `/a`
mount leaves the two-segment `VirtualRoot` path length unchanged. -/
theorem C7_witness :
    w7Req.extensions.originalUrl.isSome = true
    ∧ virtualRootLen (Mount.handle 1 w7Mount w7Req).fst = virtualRootLen w7Req := by
  refine ⟨rfl, C7_virtual_root_push_pop 1 w7Mount w7Req rfl ?_⟩
  intro q mt hq
  have h0 : w7Mount.inner = (Trie.mk none []).insert ["a"] (Match.mk probe 1) := rfl
  rw [h0] at hq
  have hv := Trie.get?_single ["a"] (Match.mk probe 1) q mt hq
  rw [hv]
  exact HandlerPreserves.base _ (fun r _ => rfl)

/-- C10: a dispatch whose reachable handlers leave the non-path,
non-context parts of the request alone mutates only `url.path` and the two
context entries: the non-path URL components, all other typemap entries and
the non-URL request fields are unchanged when dispatch returns, on the
match, no-match, handler-success and handler-error paths alike. -/
theorem C10_frame (fuel : Nat) (m : Mount) (req : Request)
    (hH : ∀ q mt, m.inner.get? q = some mt → HandlerPreserves otherState mt.handler) :
    otherState (Mount.handle fuel m req).fst = otherState req := by
  cases hm : Mount.matchFor m req.url.path with
  | none => rw [Mount.handle_of_no_match fuel m req hm]
  | some mt =>
    rw [Mount.handle_of_match fuel m req mt hm]
    obtain ⟨q, hq1, hq2⟩ :=
      Trie.getAncestor_sound (stripTrailingEmpty req.url.path) m.inner mt hm
    have hph := hH q mt hq2
    have hent : (Mount.dispatchEnter req (stripTrailingEmpty req.url.path) mt
        (!req.extensions.originalUrl.isSome)).extensions.originalUrl.isSome = true := by
      cases ho : req.extensions.originalUrl with
      | none =>
        have hb : (Mount.dispatchEnter req (stripTrailingEmpty req.url.path) mt
            true).extensions.originalUrl.isSome = true := by
          rw [Mount.dispatchEnter_originalUrl_outer]
          rfl
        exact hb
      | some u =>
        have hb : (Mount.dispatchEnter req (stripTrailingEmpty req.url.path) mt
            false).extensions.originalUrl.isSome = true := by
          rw [Mount.dispatchEnter_originalUrl_inner, ho]
          rfl
        exact hb
    have hrun := Handler.run_preserves_otherState fuel mt.handler hph _ hent
    show otherState (Mount.dispatchExit
      (Handler.run fuel mt.handler
        (Mount.dispatchEnter req (stripTrailingEmpty req.url.path) mt
          (!req.extensions.originalUrl.isSome))).fst
      req.url.path (stripTrailingEmpty req.url.path)
      (!req.extensions.originalUrl.isSome)) = otherState req
    rw [Mount.dispatchExit_otherState, hrun, Mount.dispatchEnter_otherState]

/-- Witness for C10: a dispatch of `/a/z` whose handler overwrites the path
and fails still leaves the non-path URL component, the other typemap
entries and the non-URL request fields untouched. -/
theorem C10_witness :
    otherState (Mount.handle 1 w10Mount w10Req).fst = otherState w10Req := by
  refine C10_frame 1 w10Mount w10Req ?_
  intro q mt hq
  have h0 : w10Mount.inner = (Trie.mk none []).insert ["a"] (Match.mk w10Handler 1) := rfl
  rw [h0] at hq
  have hv := Trie.get?_single ["a"] (Match.mk w10Handler 1) q mt hq
  rw [hv]
  exact HandlerPreserves.base _ (fun r _ => rfl)

/-- C8: registering a route with a trailing slash produces exactly the same
mount (same trie node, same stored length) as registering it without, and
re-registering the same route replaces the prior binding with the new
handler — last registration wins, no error. -/
theorem C8_registration_normalization (m : Mount) (route : String) (h h' : Handler) :
    Mount.on m (route ++ "/") h = Mount.on m route h
    ∧ Mount.on (Mount.on m route h') route h = Mount.on m route h := by
  constructor
  · show (⟨m.inner.insert (parseRoute (route ++ "/"))
      (Match.mk h (parseRoute (route ++ "/")).length)⟩ : Mount)
      = ⟨m.inner.insert (parseRoute route) (Match.mk h (parseRoute route).length)⟩
    rw [parseRoute_append_slash]
  · show (⟨(m.inner.insert (parseRoute route) (Match.mk h' (parseRoute route).length)).insert
      (parseRoute route) (Match.mk h (parseRoute route).length)⟩ : Mount)
      = ⟨m.inner.insert (parseRoute route) (Match.mk h (parseRoute route).length)⟩
    rw [Trie.insert_insert]

/-- C1 counterexample: with `/a` mounted to an inner mount that mounts `/b`
to the probe, dispatching `/a/b/x` shows the probe a `VirtualRoot` path of
`["a", "b", "x", "b", "x"]` — the outer normalized path followed by the
inner normalized path — and not the concatenation of the consumed prefixes
`parseRoute "/a" ++ parseRoute "/b" = ["a", "b"]` that the claim states. -/
theorem C1_counterexample :
    seenVirtualRootPath (Mount.handle 2 c1CexOuter c1CexReq)
      = some ["a", "b", "x", "b", "x"]
    ∧ seenVirtualRootPath (Mount.handle 2 c1CexOuter c1CexReq)
      ≠ some (parseRoute "/a" ++ parseRoute "/b") := by
  constructor
  · rfl
  · decide

/-- C1 amended: for a request `a ++ b ++ extra` dispatched through the
nested mounts (outer route `a` to an inner mount, inner route `b` to the
probe), with no empty segments involved, the `VirtualRoot` path observed
during the innermost handler's execution is the outer mount's full
normalized request path followed by the inner mount's full normalized
request path, `(a ++ b ++ extra) ++ (b ++ extra)` — the code pushes the
whole normalized path `root`, not just the consumed prefix (src/mount.rs
lines 110 and 116) — and after both dispatches return the context contains
neither `OriginalUrl` nor `VirtualRoot`. -/
theorem C1_amended (fuel : Nat) (a b extra : List String) (urest : String)
    (vr0 : Option Url) (eo rrest : String)
    (hane : ∀ s ∈ a, s ≠ "") (hbne : ∀ s ∈ b, s ≠ "") (hxne : ∀ s ∈ extra, s ≠ "") :
    seenVirtualRootPath (Mount.handle (fuel + 1) (c1Outer a b)
        (c1Req a b extra urest vr0 eo rrest))
      = some ((a ++ (b ++ extra)) ++ (b ++ extra))
    ∧ (Mount.handle (fuel + 1) (c1Outer a b)
        (c1Req a b extra urest vr0 eo rrest)).fst.extensions.originalUrl = none
    ∧ (Mount.handle (fuel + 1) (c1Outer a b)
        (c1Req a b extra urest vr0 eo rrest)).fst.extensions.virtualRoot = none := by
  have hallne : ∀ s ∈ a ++ (b ++ extra), s ≠ "" := by
    intro s hs
    rcases List.mem_append.mp hs with h1 | h2
    · exact hane s h1
    · rcases List.mem_append.mp h2 with h3 | h4
      · exact hbne s h3
      · exact hxne s h4
  have hbx : ∀ s ∈ b ++ extra, s ≠ "" := by
    intro s hs
    rcases List.mem_append.mp hs with h3 | h4
    · exact hbne s h3
    · exact hxne s h4
  have hstrip : stripTrailingEmpty (a ++ (b ++ extra)) = a ++ (b ++ extra) :=
    stripTrailingEmpty_of_no_empty _ hallne
  have hstrip2 : stripTrailingEmpty (b ++ extra) = b ++ extra :=
    stripTrailingEmpty_of_no_empty _ hbx
  have hm1 : Mount.matchFor (c1Outer a b) (c1Req a b extra urest vr0 eo rrest).url.path
      = some (Match.mk
          (Handler.mount ((Trie.mk none []).insert b (Match.mk probe b.length)))
          a.length) := by
    show ((Trie.mk none []).insert a
        (Match.mk (Handler.mount ((Trie.mk none []).insert b (Match.mk probe b.length)))
          a.length)).getAncestor (stripTrailingEmpty (a ++ (b ++ extra))) = _
    rw [hstrip]
    exact Trie.getAncestor_insert_append a (b ++ extra) _
  rw [Mount.handle_of_match (fuel + 1) (c1Outer a b) (c1Req a b extra urest vr0 eo rrest)
    (Match.mk (Handler.mount ((Trie.mk none []).insert b (Match.mk probe b.length)))
      a.length) hm1]
  rw [show (!(c1Req a b extra urest vr0 eo rrest).extensions.originalUrl.isSome) = true
    from rfl]
  rw [show (c1Req a b extra urest vr0 eo rrest).url.path = a ++ (b ++ extra) from rfl]
  rw [hstrip]
  refine ⟨?_, rfl, rfl⟩
  rw [show (Match.mk
      (Handler.mount ((Trie.mk none []).insert b (Match.mk probe b.length)))
      a.length).handler
    = Handler.mount ((Trie.mk none []).insert b (Match.mk probe b.length)) from rfl]
  have h2 : Mount.dispatchEnter (c1Req a b extra urest vr0 eo rrest) (a ++ (b ++ extra))
      (Match.mk (Handler.mount ((Trie.mk none []).insert b (Match.mk probe b.length)))
        a.length) true
      = ⟨⟨b ++ extra, urest⟩,
         ⟨some ⟨a ++ (b ++ extra), urest⟩, some ⟨a ++ (b ++ extra), urest⟩, eo⟩, rrest⟩ := by
    show (⟨⟨(a ++ (b ++ extra)).drop a.length, urest⟩,
      ⟨some ⟨a ++ (b ++ extra), urest⟩, some ⟨a ++ (b ++ extra), urest⟩, eo⟩,
      rrest⟩ : Request) = _
    rw [List.drop_left]
  rw [h2, Handler.run_mount]
  have hm2 : Mount.matchFor (⟨(Trie.mk none []).insert b (Match.mk probe b.length)⟩ : Mount)
      (⟨⟨b ++ extra, urest⟩,
        ⟨some ⟨a ++ (b ++ extra), urest⟩, some ⟨a ++ (b ++ extra), urest⟩, eo⟩,
        rrest⟩ : Request).url.path
      = some (Match.mk probe b.length) := by
    show ((Trie.mk none []).insert b (Match.mk probe b.length)).getAncestor
      (stripTrailingEmpty (b ++ extra)) = _
    rw [hstrip2]
    exact Trie.getAncestor_insert_append b extra _
  rw [Mount.handle_of_match fuel _ _ (Match.mk probe b.length) hm2]
  rw [show (!(⟨⟨b ++ extra, urest⟩,
      ⟨some ⟨a ++ (b ++ extra), urest⟩, some ⟨a ++ (b ++ extra), urest⟩, eo⟩,
      rrest⟩ : Request).extensions.originalUrl.isSome) = false from rfl]
  rw [show (⟨⟨b ++ extra, urest⟩,
      ⟨some ⟨a ++ (b ++ extra), urest⟩, some ⟨a ++ (b ++ extra), urest⟩, eo⟩,
      rrest⟩ : Request).url.path = b ++ extra from rfl]
  rw [hstrip2]
  have h3 : Mount.dispatchEnter
      (⟨⟨b ++ extra, urest⟩,
        ⟨some ⟨a ++ (b ++ extra), urest⟩, some ⟨a ++ (b ++ extra), urest⟩, eo⟩,
        rrest⟩ : Request)
      (b ++ extra) (Match.mk probe b.length) false
      = ⟨⟨extra, urest⟩,
         ⟨some ⟨a ++ (b ++ extra), urest⟩,
          some ⟨(a ++ (b ++ extra)) ++ (b ++ extra), urest⟩, eo⟩, rrest⟩ := by
    show (⟨⟨(b ++ extra).drop b.length, urest⟩,
      ⟨some ⟨a ++ (b ++ extra), urest⟩,
       some ⟨(a ++ (b ++ extra)) ++ (b ++ extra), urest⟩, eo⟩, rrest⟩ : Request) = _
    rw [List.drop_left]
  rw [h3]
  rw [show (Match.mk probe b.length).handler
    = Handler.base (fun r => (r, Except.ok (Response.seen r))) from rfl]
  rw [Handler.run_base]
  rfl

/-- Witness for C1 (amended): dispatching `/a/b/x` through the nested
`/a` and `/b` mounts shows the probe `VirtualRoot` path
`["a", "b", "x", "b", "x"]`, and both context keys are gone afterwards. -/
theorem C1_witness :
    (∀ s ∈ (["a"] : List String), s ≠ "")
    ∧ (∀ s ∈ (["b"] : List String), s ≠ "")
    ∧ (∀ s ∈ (["x"] : List String), s ≠ "")
    ∧ seenVirtualRootPath (Mount.handle 1 (c1Outer ["a"] ["b"])
        (c1Req ["a"] ["b"] ["x"] "" none "" ""))
      = some (((["a"] : List String) ++ (["b"] ++ ["x"])) ++ (["b"] ++ ["x"]))
    ∧ (Mount.handle 1 (c1Outer ["a"] ["b"])
        (c1Req ["a"] ["b"] ["x"] "" none "" "")).fst.extensions.originalUrl = none
    ∧ (Mount.handle 1 (c1Outer ["a"] ["b"])
        (c1Req ["a"] ["b"] ["x"] "" none "" "")).fst.extensions.virtualRoot = none := by
  have h := C1_amended 0 ["a"] ["b"] ["x"] "" none "" ""
    (by decide) (by decide) (by decide)
  exact ⟨by decide, by decide, by decide, h.1, h.2.1, h.2.2⟩
